import Mathlib

/-!
Verification development for the Publ content indexer (`publ/index.py`).

The first part is a small-step interleaving model of the `Indexer` class:
external threads call `Indexer.scan_file` (enqueue), and a single-worker
thread pool executes the queued tasks (the debounce sleep, `_schedule`
calls, and `_scan_pending` drains).  Locks in the Python code make the
pending-set insert, the `_schedule` check, and the snapshot swap atomic;
each of those is one atomic step here.

The second part models a single item's processing (`Indexer._scan_file`,
the `do_scan` dispatcher, `set_fingerprint`, `prune_missing`) with the
external scanners as parameters, plus the `queue_length`/`in_progress`
introspection helpers.
-/

namespace Publ

/-- A work item for the indexer: the argument triple of `Indexer.scan_file`
(`fullpath`, `relpath`, `fixups`), matching `Indexer.QUEUE_ITEM`. -/
structure WorkItem where
  fullpath : String
  relpath : Option String
  fixups : Bool
deriving DecidableEq, Repr

/-- A task submitted to the indexer's single-worker thread pool: the debounce
sleep, a `_schedule` call, or a `_scan_pending` drain tagged with the id of
its future. -/
inductive PoolTask where
  | sleep : PoolTask
  | sched : PoolTask
  | drain : Nat → PoolTask
deriving DecidableEq, Repr

/-- Membership-checked insert: the model of `set.add` on Python's `_pending`
set.  The pending set is kept as a duplicate-free list. -/
def pinsert (i : WorkItem) (l : List WorkItem) : List WorkItem :=
  if i ∈ l then l else i :: l

/-- State of an `Indexer`: the pending set (`_pending`), the recorded worker
future (`_running`, by id), the ids of completed futures, the thread pool's
task queue, the drain currently executing together with the snapshot it took
at its atomic swap, the log of items handed to `_scan_file`, and a fresh-id
counter for futures. -/
structure SchedState where
  pending : List WorkItem
  handle : Option Nat
  doneIds : List Nat
  queue : List PoolTask
  current : Option (Nat × List WorkItem)
  processed : List WorkItem
  nextId : Nat
deriving DecidableEq, Repr

/-- The check `not self._running or self._running.done()` from `_schedule`. -/
def handleFree (s : SchedState) : Bool :=
  match s.handle with
  | none => true
  | some fid => decide (fid ∈ s.doneIds)

/-- The body of `Indexer._schedule`: under the lock, if no worker is in
flight, submit the debounce sleep (when `wait` holds, i.e. a positive wait
time was passed) and then the `_scan_pending` drain, recording the drain's
future as `_running`. -/
def schedule (s : SchedState) (wait : Bool) : SchedState :=
  if handleFree s then
    { s with
      queue := s.queue ++ (if wait then [PoolTask.sleep] else []) ++ [PoolTask.drain s.nextId]
      handle := some s.nextId
      nextId := s.nextId + 1 }
  else s

/-- `Indexer.scan_file`: add the item to the pending set under the lock, then
call `_schedule` with the configured wait time (`wait` records whether
`_wait_time` is positive). -/
def scan_file (wait : Bool) (s : SchedState) (i : WorkItem) : SchedState :=
  schedule { s with pending := pinsert i s.pending } wait

/-- One step of the single worker thread in which any executing drain body
completes normally (no item's processing raises).  If a drain has already
swapped out its snapshot, this step runs the rest of `_scan_pending`: every
snapshot item is handed to `_scan_file` without an exception escaping, then,
if the snapshot was non-empty, a catch-up `_schedule` task is submitted, and
the drain's future completes.  Otherwise the worker pops the next pool task:
a sleep does nothing, a `_schedule` task runs `schedule` with no wait, and a
drain atomically swaps the pending set for an empty one.  An idle worker
leaves the state fixed.  The exceptional completion of a drain body — an
exception escaping `_scan_file` — is the separate step `tickAbort`. -/
def tick (s : SchedState) : SchedState :=
  match s.current with
  | some (fid, snap) =>
    { s with
      processed := s.processed ++ snap
      queue := s.queue ++ (if snap = [] then [] else [PoolTask.sched])
      doneIds := fid :: s.doneIds
      current := none }
  | none =>
    match s.queue with
    | [] => s
    | PoolTask.sleep :: rest => { s with queue := rest }
    | PoolTask.sched :: rest => schedule { s with queue := rest } false
    | PoolTask.drain fid :: rest =>
      { s with queue := rest, current := some (fid, s.pending), pending := [] }

/-- The except path of `_scan_pending` (its `try`/`except` around the whole
item loop): while the drain is processing its snapshot, the processing of the
item at index `k` raises an exception that escapes `_scan_file` (for example
`set_fingerprint` raising outside `do_scan`'s own `try`).  The items before
`k` were already handed to `_scan_file` and item `k` was handed to it and
raised; the remaining snapshot items are never processed, the catch-up
`_schedule` is never submitted, and the exception is swallowed by the outer
`except`, so the drain's future still completes and the worker survives.
When no drain is mid-snapshot, or `k` is not the index of a snapshot item,
nothing can raise and the step does nothing. -/
def tickAbort (s : SchedState) (k : Nat) : SchedState :=
  match s.current with
  | some (fid, snap) =>
    if k < snap.length then
      { s with
        processed := s.processed ++ snap.take (k + 1)
        doneIds := fid :: s.doneIds
        current := none }
    else s
  | none => s

/-- An interleaving action: an `Indexer.scan_file` call from some caller
thread, a worker step whose drain body (if any) completes normally, or a
worker step whose drain body raises at snapshot index `k`. -/
inductive Act where
  | enq : WorkItem → Act
  | tick : Act
  | tickAbort : Nat → Act
deriving DecidableEq, Repr

/-- Apply one action. -/
def stepAct (wait : Bool) (s : SchedState) : Act → SchedState
  | Act.enq i => scan_file wait s i
  | Act.tick => tick s
  | Act.tickAbort k => tickAbort s k

/-- Run a sequence of actions. -/
def run (wait : Bool) (s : SchedState) (l : List Act) : SchedState :=
  l.foldl (stepAct wait) s

/-- The state of a freshly constructed `Indexer`. -/
def init : SchedState :=
  { pending := [], handle := none, doneIds := [], queue := [], current := none
    processed := [], nextId := 0 }

/-- Iterate worker steps only (no external triggers). -/
def tickN (s : SchedState) : Nat → SchedState
  | 0 => s
  | n + 1 => tickN (tick s) n

/-- Is a pool task a `_scan_pending` drain? -/
def isDrain : PoolTask → Bool
  | PoolTask.drain _ => true
  | _ => false

/-- Number of drain (`_scan_pending`) executions in flight: queued plus
currently executing. -/
def liveDrains (s : SchedState) : Nat :=
  (s.queue.filter isDrain).length + (match s.current with | none => 0 | some _ => 1)

/-- A queued task is consistent with the recorded worker handle: any queued
drain is the recorded `_running` future, not yet completed. -/
def drainOk (s : SchedState) : PoolTask → Prop
  | PoolTask.drain fid => s.handle = some fid ∧ fid ∉ s.doneIds
  | _ => True

instance (s : SchedState) : (t : PoolTask) → Decidable (drainOk s t)
  | PoolTask.sleep => Decidable.isTrue trivial
  | PoolTask.sched => Decidable.isTrue trivial
  | PoolTask.drain _ => inferInstanceAs (Decidable (_ ∧ _))

/-- Machine invariant of the scheduler: queued drains and the executing drain
are the recorded, uncompleted `_running` future; at most one drain is in
flight; future ids are fresh; and an uncompleted recorded future is actually
queued or executing. -/
def Inv (s : SchedState) : Prop :=
  (∀ t ∈ s.queue, drainOk s t) ∧
  (∀ pr ∈ s.current.toList, s.handle = some pr.1 ∧ pr.1 ∉ s.doneIds) ∧
  liveDrains s ≤ 1 ∧
  (∀ fid ∈ s.doneIds, fid < s.nextId) ∧
  (∀ fid ∈ s.handle.toList, fid < s.nextId ∧
    (fid ∈ s.doneIds ∨ PoolTask.drain fid ∈ s.queue ∨ s.current.map Prod.fst = some fid))

instance (s : SchedState) : Decidable (Inv s) := by
  unfold Inv; infer_instance

/-- The pending set has live work ahead of it without any further external
trigger: nothing is pending, or a drain or catch-up `_schedule` task is
queued, or the drain in flight took a non-empty snapshot. -/
def LiveOk (s : SchedState) : Prop :=
  s.pending = [] ∨ (∃ t ∈ s.queue, isDrain t = true) ∨ PoolTask.sched ∈ s.queue ∨
    (∃ pr ∈ s.current.toList, pr.2 ≠ ([] : List WorkItem))

instance (s : SchedState) : Decidable (LiveOk s) := by
  unfold LiveOk; infer_instance

/-- Snapshot of the drain currently executing, if any. -/
def snapItems (s : SchedState) : List WorkItem :=
  match s.current with
  | none => []
  | some pr => pr.2

/-- Remaining work bound for a single pool task. -/
def taskCost : PoolTask → Nat
  | PoolTask.sleep => 1
  | PoolTask.sched => 4
  | PoolTask.drain _ => 2

/-- Remaining-work bound for the worker: strictly decreases at every
productive worker step. -/
def cost (s : SchedState) : Nat :=
  (s.queue.map taskCost).sum
  + (match s.current with
     | none => 0
     | some pr => if pr.2 = [] then 1 else 6)
  + (if s.pending = [] then 0 else 9)

example : init.pending = [] := rfl
example : liveDrains init = 0 := rfl

theorem handle_done_of_free (s : SchedState) (hfree : handleFree s = true)
    (fid : Nat) (hfid : s.handle = some fid) : fid ∈ s.doneIds := by
  unfold handleFree at hfree
  rw [hfid] at hfree
  simpa using hfree

theorem no_drain_of_free (s : SchedState) (h : Inv s) (hfree : handleFree s = true) :
    s.queue.filter isDrain = [] ∧ s.current = none := by
  obtain ⟨hq, hc, -, -, -⟩ := h
  constructor
  · rw [List.filter_eq_nil_iff]
    intro t ht hdt
    cases t with
    | drain fid =>
        obtain ⟨h1, h2⟩ := hq _ ht
        exact h2 (handle_done_of_free s hfree fid h1)
    | sleep => simp [isDrain] at hdt
    | sched => simp [isDrain] at hdt
  · cases hcur : s.current with
    | none => rfl
    | some pr =>
        obtain ⟨h1, h2⟩ := hc pr (by simp [hcur])
        exact absurd (handle_done_of_free s hfree pr.1 h1) h2

theorem inv_schedule (s : SchedState) (w : Bool) (h : Inv s) : Inv (schedule s w) := by
  obtain ⟨hq, hc, hl, hd, hh⟩ := h
  unfold schedule
  split
  case isTrue hfree =>
    obtain ⟨hfq, hfc⟩ := no_drain_of_free s ⟨hq, hc, hl, hd, hh⟩ hfree
    have hfresh : s.nextId ∉ s.doneIds := fun hmem => lt_irrefl _ (hd _ hmem)
    refine ⟨?_, ?_, ?_, ?_, ?_⟩
    · intro t ht
      rcases List.mem_append.1 ht with ht1 | ht2
      · rcases List.mem_append.1 ht1 with ht3 | ht4
        · cases t with
          | drain g =>
              exfalso
              have hmem : PoolTask.drain g ∈ s.queue.filter isDrain := by
                rw [List.mem_filter]
                exact ⟨ht3, by simp [isDrain]⟩
              rw [hfq] at hmem
              exact absurd hmem (List.not_mem_nil _)
          | sleep => trivial
          | sched => trivial
        · cases w with
          | false => exact absurd ht4 (List.not_mem_nil _)
          | true =>
              have hts : t = PoolTask.sleep := by simpa using ht4
              subst hts
              trivial
      · have : t = PoolTask.drain s.nextId := by simpa using ht2
        subst this
        exact ⟨rfl, hfresh⟩
    · intro pr hpr
      rw [hfc] at hpr
      exact absurd hpr (List.not_mem_nil _)
    · unfold liveDrains
      rw [hfc]
      simp only [List.filter_append, hfq]
      cases w <;> simp [isDrain]
    · exact fun fid hf => Nat.lt_succ_of_lt (hd fid hf)
    · intro fid hf
      have : fid = s.nextId := by simpa using hf
      subst this
      refine ⟨Nat.lt_succ_self _, Or.inr (Or.inl ?_)⟩
      exact List.mem_append.2 (Or.inr (by simp))
  case isFalse => exact ⟨hq, hc, hl, hd, hh⟩

theorem inv_pending (s : SchedState) (P : List WorkItem) (h : Inv s) :
    Inv { s with pending := P } := by
  cases s
  exact h

theorem inv_scan_file (w : Bool) (s : SchedState) (i : WorkItem) (h : Inv s) :
    Inv (scan_file w s i) :=
  inv_schedule _ w (inv_pending s _ h)

theorem inv_tick (s : SchedState) (h : Inv s) : Inv (tick s) := by
  obtain ⟨pen, hdl, did, q, cur, pro, nid⟩ := s
  obtain ⟨hq, hc, hl, hd, hh⟩ := h
  cases cur with
  | some pr =>
      obtain ⟨fid, snap⟩ := pr
      obtain ⟨hh1, hh2⟩ := hc (fid, snap) (by simp)
      have hh1a : hdl = some fid := hh1
      have hh2a : fid ∉ did := hh2
      have hfid : fid < nid := (hh fid (by simp [hh1a])).1
      have hfq : q.filter isDrain = [] := by
        have hl2 : (q.filter isDrain).length + 1 ≤ 1 := by
          simpa [liveDrains] using hl
        exact List.length_eq_zero.1 (by omega)
      refine ⟨?_, ?_, ?_, ?_, ?_⟩
      · intro t ht2
        rcases List.mem_append.1 ht2 with ht3 | ht4
        · cases t with
          | drain g =>
              exfalso
              have hmem : PoolTask.drain g ∈ q.filter isDrain :=
                List.mem_filter.2 ⟨ht3, by simp [isDrain]⟩
              rw [hfq] at hmem
              exact absurd hmem (List.not_mem_nil _)
          | sleep => trivial
          | sched => trivial
        · split at ht4
          · exact absurd ht4 (List.not_mem_nil _)
          · have hts : t = PoolTask.sched := by simpa using ht4
            subst hts
            trivial
      · intro pr hpr
        exact absurd hpr (List.not_mem_nil _)
      · have hfq2 : ((q ++ (if snap = [] then [] else [PoolTask.sched])).filter isDrain).length
            = 0 := by
          rw [List.filter_append, hfq]
          split <;> simp [isDrain]
        show ((q ++ (if snap = [] then [] else [PoolTask.sched])).filter isDrain).length + 0 ≤ 1
        omega
      · intro g hg
        rcases List.mem_cons.1 hg with hg1 | hg2
        · exact hg1 ▸ hfid
        · exact hd g hg2
      · intro g hg
        have hg2 : g ∈ hdl.toList := hg
        rw [hh1a] at hg2
        have hgf : g = fid := by simpa using hg2
        subst hgf
        exact ⟨hfid, Or.inl (List.mem_cons_self _ _)⟩
  | none =>
      cases q with
      | nil => exact ⟨hq, hc, hl, hd, hh⟩
      | cons t rest =>
          cases t with
          | sleep =>
              refine ⟨?_, ?_, ?_, ?_, ?_⟩
              · intro u hu
                exact hq u (List.mem_cons_of_mem _ hu)
              · intro pr hpr
                exact absurd hpr (List.not_mem_nil _)
              · show (rest.filter isDrain).length + 0 ≤ 1
                have hl2 : (rest.filter isDrain).length + 0 ≤ 1 := by
                  simpa [liveDrains, isDrain] using hl
                exact hl2
              · exact hd
              · intro g hg
                obtain ⟨h1, h2⟩ := hh g hg
                refine ⟨h1, ?_⟩
                rcases h2 with h3 | h3 | h3
                · exact Or.inl h3
                · rcases List.mem_cons.1 h3 with h4 | h4
                  · exact absurd h4 (by simp)
                  · exact Or.inr (Or.inl h4)
                · exact absurd h3 (by simp)
          | sched =>
              apply inv_schedule
              refine ⟨?_, ?_, ?_, ?_, ?_⟩
              · intro u hu
                exact hq u (List.mem_cons_of_mem _ hu)
              · intro pr hpr
                exact absurd hpr (List.not_mem_nil _)
              · show (rest.filter isDrain).length + 0 ≤ 1
                have hl2 : (rest.filter isDrain).length + 0 ≤ 1 := by
                  simpa [liveDrains, isDrain] using hl
                exact hl2
              · exact hd
              · intro g hg
                obtain ⟨h1, h2⟩ := hh g hg
                refine ⟨h1, ?_⟩
                rcases h2 with h3 | h3 | h3
                · exact Or.inl h3
                · rcases List.mem_cons.1 h3 with h4 | h4
                  · exact absurd h4 (by simp)
                  · exact Or.inr (Or.inl h4)
                · exact absurd h3 (by simp)
          | drain fid =>
              obtain ⟨hf1, hf2⟩ := hq (PoolTask.drain fid) (List.mem_cons_self _ _)
              have hf1a : hdl = some fid := hf1
              have hf2a : fid ∉ did := hf2
              have hfr : rest.filter isDrain = [] := by
                have hl2 : (rest.filter isDrain).length + 1 ≤ 1 := by
                  simpa [liveDrains, isDrain] using hl
                exact List.length_eq_zero.1 (by omega)
              refine ⟨?_, ?_, ?_, ?_, ?_⟩
              · intro u hu
                cases u with
                | drain g =>
                    exfalso
                    have hmem : PoolTask.drain g ∈ rest.filter isDrain :=
                      List.mem_filter.2 ⟨hu, by simp [isDrain]⟩
                    rw [hfr] at hmem
                    exact absurd hmem (List.not_mem_nil _)
                | sleep => trivial
                | sched => trivial
              · intro pr hpr
                have hpr2 : pr ∈ (some (fid, pen)).toList := hpr
                have hpe : pr = (fid, pen) := by simpa using hpr2
                subst hpe
                exact ⟨hf1a, hf2a⟩
              · show (rest.filter isDrain).length + 1 ≤ 1
                rw [hfr]
                simp
              · exact hd
              · intro g hg
                have hg2 : g ∈ hdl.toList := hg
                rw [hf1a] at hg2
                have hgf : g = fid := by simpa using hg2
                have h1 : g < nid := (hh g (by simp [hf1a, hgf])).1
                refine ⟨h1, Or.inr (Or.inr ?_)⟩
                have hmap : Option.map Prod.fst (some (fid, pen)) = some g := by simp [hgf]
                exact hmap

theorem inv_tickAbort (s : SchedState) (k : Nat) (h : Inv s) : Inv (tickAbort s k) := by
  obtain ⟨pen, hdl, did, q, cur, pro, nid⟩ := s
  obtain ⟨hq, hc, hl, hd, hh⟩ := h
  cases cur with
  | none => exact ⟨hq, hc, hl, hd, hh⟩
  | some pr =>
      obtain ⟨fid, snap⟩ := pr
      obtain ⟨hh1, hh2⟩ := hc (fid, snap) (by simp)
      have hh1a : hdl = some fid := hh1
      have hh2a : fid ∉ did := hh2
      have hfid : fid < nid := (hh fid (by simp [hh1a])).1
      have hfq : q.filter isDrain = [] := by
        have hl2 : (q.filter isDrain).length + 1 ≤ 1 := by
          simpa [liveDrains] using hl
        exact List.length_eq_zero.1 (by omega)
      by_cases hk : k < snap.length
      · have ht : tickAbort ⟨pen, hdl, did, q, some (fid, snap), pro, nid⟩ k =
            ⟨pen, hdl, fid :: did, q, none, pro ++ snap.take (k + 1), nid⟩ := by
          unfold tickAbort
          dsimp only
          rw [if_pos hk]
        rw [ht]
        refine ⟨?_, ?_, ?_, ?_, ?_⟩
        · intro t ht2
          cases t with
          | drain g =>
              exfalso
              have hmem : PoolTask.drain g ∈ q.filter isDrain :=
                List.mem_filter.2 ⟨ht2, by simp [isDrain]⟩
              rw [hfq] at hmem
              exact absurd hmem (List.not_mem_nil _)
          | sleep => trivial
          | sched => trivial
        · intro pr hpr
          exact absurd hpr (List.not_mem_nil _)
        · show (q.filter isDrain).length + 0 ≤ 1
          rw [hfq]
          simp
        · intro g hg
          rcases List.mem_cons.1 hg with hg1 | hg2
          · exact hg1 ▸ hfid
          · exact hd g hg2
        · intro g hg
          have hg2 : g ∈ hdl.toList := hg
          rw [hh1a] at hg2
          have hgf : g = fid := by simpa using hg2
          subst hgf
          exact ⟨hfid, Or.inl (List.mem_cons_self _ _)⟩
      · have ht : tickAbort ⟨pen, hdl, did, q, some (fid, snap), pro, nid⟩ k =
            ⟨pen, hdl, did, q, some (fid, snap), pro, nid⟩ := by
          unfold tickAbort
          dsimp only
          rw [if_neg hk]
        rw [ht]
        exact ⟨hq, hc, hl, hd, hh⟩

theorem inv_stepAct (w : Bool) (s : SchedState) (a : Act) (h : Inv s) :
    Inv (stepAct w s a) := by
  cases a with
  | enq i => exact inv_scan_file w s i h
  | tick => exact inv_tick s h
  | tickAbort k => exact inv_tickAbort s k h

theorem inv_run (w : Bool) (l : List Act) (s : SchedState) (h : Inv s) : Inv (run w s l) := by
  induction l generalizing s with
  | nil => exact h
  | cons a t ih => exact ih _ (inv_stepAct w s a h)

theorem inv_init : Inv init := by decide

/-- Strong-induction workhorse: from any state satisfying the machine
invariant whose pending work is covered by live scheduled work, every pending
or snapshot item is processed after at most `cost s` further worker steps,
with no external trigger. -/
theorem drain_progress_aux : ∀ (m : Nat) (s : SchedState), cost s ≤ m → Inv s → LiveOk s →
    ∀ i : WorkItem, (i ∈ s.pending ∨ i ∈ snapItems s) →
    ∃ n, n ≤ cost s ∧ i ∈ (tickN s n).processed := by
  intro m
  induction m with
  | zero =>
      intro s hcost hInv hLive i hi
      exfalso
      obtain ⟨pen, hdl, did, q, cur, pro, nid⟩ := s
      rcases hi with hi | hi
      · have hp : pen ≠ [] := List.ne_nil_of_mem hi
        simp only [cost, if_neg hp] at hcost
        omega
      · cases cur with
        | none => exact absurd hi (List.not_mem_nil i)
        | some pr =>
            simp only [cost] at hcost
            split at hcost <;> omega
  | succ m ih =>
      intro s hcost hInv hLive i hi
      obtain ⟨pen, hdl, did, q, cur, pro, nid⟩ := s
      cases cur with
      | some pr =>
          obtain ⟨fid, snap⟩ := pr
          by_cases hsnap : i ∈ snap
          · refine ⟨1, ?_, ?_⟩
            · simp only [cost]
              split <;> omega
            · show i ∈ (pro ++ snap)
              exact List.mem_append.2 (Or.inr hsnap)
          · have hip : i ∈ pen := by
              rcases hi with hi | hi
              · exact hi
              · exact absurd hi hsnap
            have hInv2 : Inv (tick ⟨pen, hdl, did, q, some (fid, snap), pro, nid⟩) :=
              inv_tick _ hInv
            have hLive2 : LiveOk (tick ⟨pen, hdl, did, q, some (fid, snap), pro, nid⟩) := by
              by_cases hsn : snap = []
              · rcases hLive with hLive | hLive | hLive | hLive
                · exact Or.inl hLive
                · obtain ⟨t, ht, hdt⟩ := hLive
                  exact Or.inr (Or.inl ⟨t, List.mem_append.2 (Or.inl ht), hdt⟩)
                · exact Or.inr (Or.inr (Or.inl (List.mem_append.2 (Or.inl hLive))))
                · obtain ⟨pr, hpr, hpr2⟩ := hLive
                  have hpe : pr = (fid, snap) := by simpa using hpr
                  rw [hpe] at hpr2
                  exact absurd hsn hpr2
              · refine Or.inr (Or.inr (Or.inl ?_))
                show PoolTask.sched ∈ q ++ (if snap = [] then [] else [PoolTask.sched])
                rw [if_neg hsn]
                exact List.mem_append.2 (Or.inr (List.mem_singleton.2 rfl))
            have hcost2 : cost (tick ⟨pen, hdl, did, q, some (fid, snap), pro, nid⟩)
                < cost ⟨pen, hdl, did, q, some (fid, snap), pro, nid⟩ := by
              show cost ⟨pen, hdl, fid :: did, q ++ (if snap = [] then [] else [PoolTask.sched]),
                  none, pro ++ snap, nid⟩ < _
              by_cases hsn : snap = []
              · simp only [cost, List.map_append, List.sum_append, if_pos hsn, List.map_nil,
                  List.sum_nil]
                split <;> omega
              · simp only [cost, List.map_append, List.sum_append, if_neg hsn, List.map_cons,
                  List.sum_cons, List.map_nil, List.sum_nil, taskCost]
                split <;> omega
            obtain ⟨n, hn, hmem⟩ := ih _ (by omega) hInv2 hLive2 i (Or.inl hip)
            exact ⟨n + 1, by omega, hmem⟩
      | none =>
          cases q with
          | nil =>
              exfalso
              rcases hLive with hLive | hLive | hLive | hLive
              · rcases hi with hi | hi
                · rw [hLive] at hi
                  exact absurd hi (List.not_mem_nil i)
                · exact absurd hi (List.not_mem_nil i)
              · obtain ⟨t, ht, -⟩ := hLive
                exact absurd ht (List.not_mem_nil t)
              · exact absurd hLive (List.not_mem_nil _)
              · obtain ⟨pr, hpr, -⟩ := hLive
                exact absurd hpr (List.not_mem_nil pr)
          | cons t rest =>
              have hip : i ∈ pen := by
                rcases hi with hi | hi
                · exact hi
                · exact absurd hi (List.not_mem_nil i)
              cases t with
              | sleep =>
                  have hInv2 : Inv (tick ⟨pen, hdl, did, PoolTask.sleep :: rest, none, pro, nid⟩) :=
                    inv_tick _ hInv
                  have hLive2 :
                      LiveOk (tick ⟨pen, hdl, did, PoolTask.sleep :: rest, none, pro, nid⟩) := by
                    rcases hLive with hLive | hLive | hLive | hLive
                    · exact Or.inl hLive
                    · obtain ⟨t, ht, hdt⟩ := hLive
                      rcases List.mem_cons.1 ht with ht2 | ht2
                      · rw [ht2] at hdt
                        simp [isDrain] at hdt
                      · exact Or.inr (Or.inl ⟨t, ht2, hdt⟩)
                    · rcases List.mem_cons.1 hLive with ht2 | ht2
                      · exact absurd ht2 (by simp)
                      · exact Or.inr (Or.inr (Or.inl ht2))
                    · obtain ⟨pr, hpr, -⟩ := hLive
                      exact absurd hpr (List.not_mem_nil pr)
                  have hcost2 : cost (tick ⟨pen, hdl, did, PoolTask.sleep :: rest, none, pro, nid⟩)
                      < cost ⟨pen, hdl, did, PoolTask.sleep :: rest, none, pro, nid⟩ := by
                    show cost ⟨pen, hdl, did, rest, none, pro, nid⟩ < _
                    simp only [cost, List.map_cons, List.sum_cons, taskCost]
                    omega
                  obtain ⟨n, hn, hmem⟩ := ih _ (by omega) hInv2 hLive2 i (Or.inl hip)
                  exact ⟨n + 1, by omega, hmem⟩
              | sched =>
                  by_cases hfree : handleFree ⟨pen, hdl, did, rest, none, pro, nid⟩ = true
                  · have ht : tick ⟨pen, hdl, did, PoolTask.sched :: rest, none, pro, nid⟩ =
                        ⟨pen, some nid, did, rest ++ [] ++ [PoolTask.drain nid], none, pro,
                          nid + 1⟩ := by
                      show schedule ⟨pen, hdl, did, rest, none, pro, nid⟩ false = _
                      unfold schedule
                      rw [if_pos hfree]
                      rfl
                    have hInv2 :
                        Inv (tick ⟨pen, hdl, did, PoolTask.sched :: rest, none, pro, nid⟩) :=
                      inv_tick _ hInv
                    rw [ht] at hInv2
                    have hLive2 : LiveOk (⟨pen, some nid, did,
                        rest ++ [] ++ [PoolTask.drain nid], none, pro, nid + 1⟩ : SchedState) := by
                      refine Or.inr (Or.inl ⟨PoolTask.drain nid, ?_, by simp [isDrain]⟩)
                      simp
                    have hcost2 : cost (⟨pen, some nid, did,
                        rest ++ [] ++ [PoolTask.drain nid], none, pro, nid + 1⟩ : SchedState)
                        < cost ⟨pen, hdl, did, PoolTask.sched :: rest, none, pro, nid⟩ := by
                      simp only [cost, List.map_append, List.sum_append, List.map_cons,
                        List.sum_cons, List.map_nil, List.sum_nil, taskCost]
                      omega
                    obtain ⟨n, hn, hmem⟩ := ih _ (by omega) hInv2 hLive2 i (Or.inl hip)
                    refine ⟨n + 1, by omega, ?_⟩
                    show i ∈ (tickN (tick ⟨pen, hdl, did, PoolTask.sched :: rest, none, pro,
                        nid⟩) n).processed
                    rw [ht]
                    exact hmem
                  · have ht : tick ⟨pen, hdl, did, PoolTask.sched :: rest, none, pro, nid⟩ =
                        ⟨pen, hdl, did, rest, none, pro, nid⟩ := by
                      show schedule ⟨pen, hdl, did, rest, none, pro, nid⟩ false = _
                      unfold schedule
                      rw [if_neg hfree]
                    have hInv2 :
                        Inv (tick ⟨pen, hdl, did, PoolTask.sched :: rest, none, pro, nid⟩) :=
                      inv_tick _ hInv
                    rw [ht] at hInv2
                    obtain ⟨f, hf1, hf2⟩ : ∃ f, hdl = some f ∧ f ∉ did := by
                      cases hh : hdl with
                      | none => rw [show handleFree ⟨pen, hdl, did, rest, none, pro, nid⟩ =
                          true from by unfold handleFree; rw [hh]] at hfree; exact absurd rfl hfree
                      | some f =>
                          refine ⟨f, rfl, fun hmem => ?_⟩
                          apply hfree
                          unfold handleFree
                          rw [hh]
                          simpa using hmem
                    have hdrain : PoolTask.drain f ∈ rest := by
                      obtain ⟨-, -, -, -, hh5⟩ := hInv
                      obtain ⟨-, hcases⟩ := hh5 f (by simp [hf1])
                      rcases hcases with hcc | hcc | hcc
                      · exact absurd hcc hf2
                      · rcases List.mem_cons.1 hcc with hc2 | hc2
                        · exact absurd hc2 (by simp)
                        · exact hc2
                      · exact absurd hcc (by simp)
                    have hLive2 : LiveOk (⟨pen, hdl, did, rest, none, pro, nid⟩ : SchedState) :=
                      Or.inr (Or.inl ⟨PoolTask.drain f, hdrain, by simp [isDrain]⟩)
                    have hcost2 : cost (⟨pen, hdl, did, rest, none, pro, nid⟩ : SchedState)
                        < cost ⟨pen, hdl, did, PoolTask.sched :: rest, none, pro, nid⟩ := by
                      simp only [cost, List.map_cons, List.sum_cons, taskCost]
                      omega
                    obtain ⟨n, hn, hmem⟩ := ih _ (by omega) hInv2 hLive2 i (Or.inl hip)
                    refine ⟨n + 1, by omega, ?_⟩
                    show i ∈ (tickN (tick ⟨pen, hdl, did, PoolTask.sched :: rest, none, pro,
                        nid⟩) n).processed
                    rw [ht]
                    exact hmem
              | drain fid =>
                  have hInv2 :
                      Inv (tick ⟨pen, hdl, did, PoolTask.drain fid :: rest, none, pro, nid⟩) :=
                    inv_tick _ hInv
                  have hLive2 :
                      LiveOk (tick ⟨pen, hdl, did, PoolTask.drain fid :: rest, none, pro,
                        nid⟩) := by
                    have hc2 : (fid, pen) ∈ (some (fid, pen)).toList := by simp
                    exact Or.inr (Or.inr (Or.inr ⟨(fid, pen), hc2, List.ne_nil_of_mem hip⟩))
                  have hcost2 : cost (tick ⟨pen, hdl, did, PoolTask.drain fid :: rest, none, pro,
                      nid⟩) < cost ⟨pen, hdl, did, PoolTask.drain fid :: rest, none, pro, nid⟩ := by
                    show cost ⟨[], hdl, did, rest, some (fid, pen), pro, nid⟩ < _
                    by_cases hp : pen = [] <;> simp [cost, taskCost, hp] <;> omega
                  have hsnap2 : i ∈ snapItems ⟨[], hdl, did, rest, some (fid, pen), pro, nid⟩ :=
                    hip
                  obtain ⟨n, hn, hmem⟩ := ih _ (by omega) hInv2 hLive2 i (Or.inr hsnap2)
                  exact ⟨n + 1, by omega, hmem⟩

/-- C2: At most one drain pass is ever in flight.  Under any interleaving of
`Indexer.scan_file` calls and worker steps starting from a fresh `Indexer`,
the number of `_scan_pending` executions that are queued or currently running
never exceeds one, because `_schedule` submits a new batch-processing task
only when, under the pending-set lock, the recorded `_running` handle is
absent or already completed. -/
theorem at_most_one_drain (w : Bool) (l : List Act) : liveDrains (run w init l) ≤ 1 :=
  (inv_run w l init inv_init).2.2.1

/-- C1 (amended): no item covered by live scheduled work is lost, as long as
every remaining drain pass completes normally.  If the machine invariant
holds and either nothing is pending, a drain or catch-up `_schedule` task is
queued, or the in-flight drain's snapshot is non-empty, then every pending
item and every snapshot item is processed within a bounded number of worker
steps (`cost s`), with no further external trigger.  The conclusion iterates
`tick` only: it quantifies over exactly the executions in which no item's
processing raises an exception escaping `_scan_file` — the `tickAbort` steps
are excluded.  Both provisos are forced by `scan_no_loss_cex`: an item
enqueued after the swap of a drain whose snapshot was empty has no live work
covering it, and an exception raised while a snapshot is being processed
drops the rest of that snapshot and skips the catch-up pass. -/
theorem enqueue_no_loss_amended (s : SchedState) (hInv : Inv s) (hLive : LiveOk s)
    (i : WorkItem) (hi : i ∈ s.pending ∨ i ∈ snapItems s) :
    ∃ n, n ≤ cost s ∧ i ∈ (tickN s n).processed :=
  drain_progress_aux (cost s) s le_rfl hInv hLive i hi

/-- A concrete enqueued item. -/
def itemA : WorkItem := ⟨"content/a.md", some "a.md", false⟩

/-- A second concrete enqueued item. -/
def itemC : WorkItem := ⟨"content/c.md", some "c.md", false⟩

/-- A state with one pending item and the drain for it queued. -/
def liveWitnessState : SchedState :=
  { pending := [itemA], handle := some 0, doneIds := [], queue := [PoolTask.drain 0],
    current := none, processed := [], nextId := 1 }

theorem enqueue_no_loss_amended_witness :
    Inv liveWitnessState ∧ LiveOk liveWitnessState ∧
      ∃ n, n ≤ cost liveWitnessState ∧ itemA ∈ (tickN liveWitnessState n).processed :=
  ⟨by decide, by decide,
    enqueue_no_loss_amended liveWitnessState (by decide) (by decide) itemA (Or.inl (by decide))⟩

/-- The prefix of the racing trace: enqueue `itemA`, then five worker steps,
after which the catch-up drain (future 1) has taken its empty snapshot and its
future is not yet completed. -/
def raceStart : List Act :=
  [Act.enq itemA, Act.tick, Act.tick, Act.tick, Act.tick, Act.tick]

/-- The racing trace: `itemC` is enqueued while the empty-snapshot drain is in
progress, and then the worker runs to completion. -/
def raceTrace : List Act :=
  raceStart ++ [Act.enq itemC, Act.tick]

/-- A third concrete enqueued item. -/
def itemB : WorkItem := ⟨"content/b.md", some "b.md", false⟩

/-- The prefix of the aborting trace: two items enqueued, then the worker
sleeps and swaps, so the drain is mid-snapshot over `[itemB, itemA]`. -/
def abortStart : List Act :=
  [Act.enq itemA, Act.enq itemB, Act.tick, Act.tick]

/-- The aborting trace: the processing of snapshot index 0 (`itemB`) raises an
exception that escapes `_scan_file` — for instance its `set_fingerprint`
hitting the duplicate-create branch — which the batch-level `except`
swallows. -/
def abortTrace : List Act :=
  abortStart ++ [Act.tickAbort 0]

/-- C1 as stated is false on the code, in two ways.  First, the empty-swap
race: `itemC` is enqueued while a drain is in progress (the state after
`raceStart` has a drain executing), yet after the worker finishes, `itemC`
sits in the pending set, was never processed, and the final state is a fixed
point of the worker, so no number of further worker steps ever processes it —
it needs another external `scan_file` call; the enqueue's `_schedule` was a
no-op because `_running` was not done, and the drain's snapshot was empty, so
no catch-up pass was submitted.  Second, the mid-snapshot exception: the
swapped snapshot `[itemB, itemA]` is not fully iterated — the processing of
`itemB` raises, so `itemA` is dropped (neither processed nor pending) — and
the non-empty snapshot causes no further drain pass to be scheduled: the
system is quiescent with `itemA` lost. -/
theorem scan_no_loss_cex :
    (run true init raceStart).current.isSome = true ∧
    itemC ∈ (run true init raceTrace).pending ∧
    itemC ∉ (run true init raceTrace).processed ∧
    tick (run true init raceTrace) = run true init raceTrace ∧
    snapItems (run true init abortStart) = [itemB, itemA] ∧
    itemA ∉ (run true init abortTrace).processed ∧
    itemA ∉ (run true init abortTrace).pending ∧
    (run true init abortTrace).queue = [] ∧
    tick (run true init abortTrace) = run true init abortTrace := by decide

theorem run_append (w : Bool) (s : SchedState) (l1 l2 : List Act) :
    run w s (l1 ++ l2) = run w (run w s l1) l2 :=
  List.foldl_append _ _ _ _

/-- Re-enqueueing the very same item before the worker has run changes
nothing: the pending set deduplicates, and `_schedule` sees the queued worker. -/
theorem scan_file_idem (i : WorkItem) :
    scan_file true (scan_file true init i) i = scan_file true init i := by
  show scan_file true (⟨[i], some 0, [], [PoolTask.sleep, PoolTask.drain 0], none, [], 1⟩ :
      SchedState) i =
    ⟨[i], some 0, [], [PoolTask.sleep, PoolTask.drain 0], none, [], 1⟩
  unfold scan_file schedule pinsert
  simp [handleFree]

theorem run_enq_fixed (n : Nat) (i : WorkItem) :
    run true (scan_file true init i) (List.replicate n (Act.enq i)) = scan_file true init i := by
  induction n with
  | zero => rfl
  | succ k ih =>
      show run true (stepAct true (scan_file true init i) (Act.enq i))
        (List.replicate k (Act.enq i)) = _
      rw [show stepAct true (scan_file true init i) (Act.enq i) =
        scan_file true (scan_file true init i) i from rfl, scan_file_idem]
      exact ih

theorem run_enq_replicate (N : Nat) (hN : 1 ≤ N) (i : WorkItem) :
    run true init (List.replicate N (Act.enq i)) = scan_file true init i := by
  cases N with
  | zero => omega
  | succ k =>
      show run true (stepAct true init (Act.enq i)) (List.replicate k (Act.enq i)) = _
      exact run_enq_fixed k i

/-- After one enqueue driven to quiescence, the worker has processed the item
exactly once. -/
theorem state1_ticks (i : WorkItem) :
    run true (scan_file true init i)
        [Act.tick, Act.tick, Act.tick, Act.tick, Act.tick, Act.tick]
      = ⟨[], some 1, [1, 0], [], none, [i], 2⟩ := rfl

/-- C4: enqueue is idempotent before a drain.  Calling `scan_file` N times
(N ≥ 1) with the identical triple leaves exactly one copy in the pending set,
and driving the worker to quiescence yields exactly one processing attempt for
that triple and an empty pending set. -/
theorem dedup_enqueue (N : Nat) (hN : 1 ≤ N) (i : WorkItem) :
    (run true init (List.replicate N (Act.enq i))).pending = [i] ∧
    (run true init (List.replicate N (Act.enq i) ++
      [Act.tick, Act.tick, Act.tick, Act.tick, Act.tick, Act.tick])).processed.count i = 1 ∧
    (run true init (List.replicate N (Act.enq i) ++
      [Act.tick, Act.tick, Act.tick, Act.tick, Act.tick, Act.tick])).pending = [] := by
  have h1 := run_enq_replicate N hN i
  rw [run_append, h1, state1_ticks]
  refine ⟨rfl, by simp, rfl⟩

theorem dedup_enqueue_witness :
    1 ≤ 3 ∧
    ((run true init (List.replicate 3 (Act.enq itemA))).pending = [itemA] ∧
    (run true init (List.replicate 3 (Act.enq itemA) ++
      [Act.tick, Act.tick, Act.tick, Act.tick, Act.tick, Act.tick])).processed.count itemA = 1 ∧
    (run true init (List.replicate 3 (Act.enq itemA) ++
      [Act.tick, Act.tick, Act.tick, Act.tick, Act.tick, Act.tick])).pending = []) :=
  ⟨by decide, dedup_enqueue 3 (by decide) itemA⟩

/-! ## Item-level model: `do_scan`, `set_fingerprint`, `Indexer._scan_file` -/

/-- Extensions routed to `entry.scan_file` (ENTRY_TYPES in index.py). -/
def ENTRY_TYPES : List String := [".md", ".htm", ".html"]

/-- Extensions routed to `category.scan_file` (CATEGORY_TYPES in index.py). -/
def CATEGORY_TYPES : List String := [".cat", ".meta"]

/-- `os.path.splitext`: split off the extension at the last dot of the last
path component, treating a leading run of dots as part of the root (so a
dotfile has no extension). -/
def splitext (p : String) : String × String :=
  let l := p.toList
  let rbase := l.reverse.takeWhile (fun c => c ≠ '/')
  match rbase.dropWhile (fun c => c ≠ '.') with
  | [] => (p, "")
  | _ :: pre =>
    if pre.all (fun c => c = '.') then (p, "")
    else
      let ext := '.' :: (rbase.takeWhile (fun c => c ≠ '.')).reverse
      (String.mk (l.take (l.length - ext.length)), String.mk ext)

example : splitext "content/a.md" = ("content/a", ".md") := by decide
example : splitext "content/.hidden" = ("content/.hidden", "") := by decide
example : splitext "x/site.meta" = ("x/site", ".meta") := by decide
example : splitext "notes.txt" = ("notes", ".txt") := by decide

/-- Raw behavior of an external scanner on a given call, as seen by the
`do_scan` helper: a truthy record, the value False, the value None, or an
exception escaping the scanner. -/
inductive ScanRes where
  | truthy : ScanRes
  | falsy : ScanRes
  | noneRes : ScanRes
  | raises : ScanRes
deriving DecidableEq, Repr

/-- A recorded invocation of an external scanner.  `entry.scan_file` is called
with `(fullpath, relpath, fixups)`; `category.scan_file` is called with
`(fullpath, relpath)` only. -/
inductive ScanCall where
  | entry : String → Option String → Bool → ScanCall
  | cat : String → Option String → ScanCall
deriving DecidableEq, Repr

/-- Behavior of `entry.scan_file` as a function of its arguments. -/
def EntryScanner : Type := String → Option String → Bool → ScanRes

/-- Behavior of `category.scan_file` as a function of its arguments. -/
def CatScanner : Type := String → Option String → ScanRes

/-- The `do_scan` helper inside `Indexer._scan_file`: route on the extension,
call the matching scanner, translate a truthy value to `some true`, False to
`some false`, None to `none`, and catch any exception as `some false`
(logged and returned as False).  Also returns the scanner calls made. -/
def do_scan (es : EntryScanner) (cs : CatScanner)
    (fullpath : String) (relpath : Option String) (fixups : Bool) :
    Option Bool × List ScanCall :=
  let ext := (splitext fullpath).2
  if ext ∈ ENTRY_TYPES then
    (match es fullpath relpath fixups with
      | ScanRes.truthy => some true
      | ScanRes.falsy => some false
      | ScanRes.noneRes => none
      | ScanRes.raises => some false,
     [ScanCall.entry fullpath relpath fixups])
  else if ext ∈ CATEGORY_TYPES then
    (match cs fullpath relpath with
      | ScanRes.truthy => some true
      | ScanRes.falsy => some false
      | ScanRes.noneRes => none
      | ScanRes.raises => some false,
     [ScanCall.cat fullpath relpath])
  else (none, [])

/-- A `model.FileFingerprint` row.  Modelled from the spec: `model.py` is not
under src/; the spec gives `file_path` as the unique key of the record. -/
structure FpRecord where
  file_path : String
  fingerprint : String
  file_mtime : Int
deriving DecidableEq, Repr

/-- Filesystem snapshot: for each path, the content fingerprint and mtime of
the file, if it exists.  Modelled from the spec: `utils.file_fingerprint` is
not under src/; the spec specifies an external content-derived fingerprint
function whose failure on a missing file is distinguishable. -/
def FileSys : Type := String → Option (String × Int)

/-- `utils.file_fingerprint`: `none` models FileNotFoundError. -/
def file_fingerprint (fs : FileSys) (p : String) : Option String :=
  (fs p).map Prod.fst

/-- `os.stat(...).st_mtime`: `none` models FileNotFoundError. -/
def statMtime (fs : FileSys) (p : String) : Option Int :=
  (fs p).map Prod.snd

/-- `os.path.isfile`. -/
def isfile (fs : FileSys) (p : String) : Bool :=
  (fs p).isSome

/-- An exception escaping `set_fingerprint` (not a FileNotFoundError):
creating a second `FileFingerprint` with an already-present unique `file_path`
raises an integrity (cache-index) error from the ORM. -/
inductive SetErr where
  | cacheIndex : SetErr
deriving DecidableEq, Repr

/-- The `orm.delete` fallback of `set_fingerprint`: drop every record for the
path. -/
def deleteRecords (store : List FpRecord) (p : String) : List FpRecord :=
  store.filter (fun r => r.file_path != p)

/-- `set_fingerprint` from index.py.  The fingerprint argument defaults to the
file's current fingerprint (a falsy explicit argument is also recomputed, per
`fingerprint or utils.file_fingerprint(fullpath)`).  A FileNotFoundError
anywhere in the body deletes the path's records; otherwise the existing record
is updated in place when the stored fingerprint differs, and in every other
case — including the case of an existing record with an unchanged
fingerprint — a new record with the same `file_path` is constructed, which for
an existing record violates the unique key and raises. -/
def set_fingerprint (fs : FileSys) (store : List FpRecord) (fullpath : String)
    (fpArg : Option String) : Except SetErr (List FpRecord) :=
  let fpOpt : Option String :=
    match fpArg with
    | some f => if f = "" then file_fingerprint fs fullpath else some f
    | none => file_fingerprint fs fullpath
  match fpOpt with
  | none => Except.ok (deleteRecords store fullpath)
  | some fp =>
    match store.find? (fun r => r.file_path == fullpath) with
    | some r =>
      if r.fingerprint ≠ fp then
        match statMtime fs fullpath with
        | none => Except.ok (deleteRecords store fullpath)
        | some m =>
          Except.ok (store.map (fun q =>
            if q.file_path = fullpath then ⟨fullpath, fp, m⟩ else q))
      else
        match statMtime fs fullpath with
        | none => Except.ok (deleteRecords store fullpath)
        | some _ => Except.error SetErr.cacheIndex
    | none =>
      match statMtime fs fullpath with
      | none => Except.ok (deleteRecords store fullpath)
      | some m => Except.ok (store ++ [⟨fullpath, fp, m⟩])

deriving instance DecidableEq for Except

/-- The observable outcome of `Indexer._scan_file` on one work item: the
`do_scan` result, the scanner calls made, the items re-enqueued via
`self.scan_file`, and the store resulting from the `set_fingerprint` call
(`Except.error` when `set_fingerprint` raised — that exception propagates out
of `_scan_file`). -/
structure ScanStep where
  result : Option Bool
  calls : List ScanCall
  enqueued : List WorkItem
  outcome : Except SetErr (List FpRecord)
deriving DecidableEq, Repr

/-- `Indexer._scan_file`: run `do_scan`; if the result is False and this was
not a fixup pass, re-enqueue the same path with `fixups = True` and do not
touch the fingerprint store; otherwise call `set_fingerprint`. -/
def scan_file_item (es : EntryScanner) (cs : CatScanner) (fs : FileSys)
    (store : List FpRecord) (it : WorkItem) : ScanStep :=
  let rc := do_scan es cs it.fullpath it.relpath it.fixups
  if rc.1 = some false ∧ it.fixups = false then
    ⟨rc.1, rc.2, [⟨it.fullpath, it.relpath, true⟩], Except.ok store⟩
  else
    ⟨rc.1, rc.2, [], set_fingerprint fs store it.fullpath none⟩

/-- The item loop of `Indexer._scan_pending` over a drained snapshot: items
are processed in order; an exception escaping `_scan_file` (from
`set_fingerprint`) is caught only by the `try` around the whole loop, so it
stops the loop (and skips the catch-up `_schedule`); the worker itself always
survives.  Returns the per-item steps performed (a prefix of the items) and
the final store. -/
def processBatch (es : EntryScanner) (cs : CatScanner) (fs : FileSys) :
    List FpRecord → List WorkItem → List ScanStep × List FpRecord
  | store, [] => ([], store)
  | store, it :: rest =>
    let st := scan_file_item es cs fs store it
    match st.outcome with
    | Except.error _ => ([st], store)
    | Except.ok store2 =>
      let tail := processBatch es cs fs store2 rest
      (st :: tail.1, tail.2)

/-- Routing equation of `do_scan` for entry-type extensions. -/
theorem do_scan_entry (es : EntryScanner) (cs : CatScanner) (p : String) (r : Option String)
    (fx : Bool) (hext : (splitext p).2 ∈ ENTRY_TYPES) :
    do_scan es cs p r fx =
      (match es p r fx with
        | ScanRes.truthy => some true
        | ScanRes.falsy => some false
        | ScanRes.noneRes => none
        | ScanRes.raises => some false,
       [ScanCall.entry p r fx]) := by
  unfold do_scan
  rw [if_pos hext]

/-- The entry and category extension lists are disjoint. -/
theorem cat_not_entry (e : String) (hc : e ∈ CATEGORY_TYPES) : e ∉ ENTRY_TYPES := by
  have h2 : e = ".cat" ∨ e = ".meta" := by simpa [CATEGORY_TYPES] using hc
  rcases h2 with h2 | h2 <;> rw [h2] <;> decide

/-- Routing equation of `do_scan` for category-type extensions. -/
theorem do_scan_cat (es : EntryScanner) (cs : CatScanner) (p : String) (r : Option String)
    (fx : Bool) (hext : (splitext p).2 ∈ CATEGORY_TYPES) :
    do_scan es cs p r fx =
      (match cs p r with
        | ScanRes.truthy => some true
        | ScanRes.falsy => some false
        | ScanRes.noneRes => none
        | ScanRes.raises => some false,
       [ScanCall.cat p r]) := by
  unfold do_scan
  rw [if_neg (cat_not_entry _ hext), if_pos hext]

/-- Filesystem for the unchanged-fingerprint scenario: `content/a.md` exists
with fingerprint f1 and mtime 7. -/
def fsUnchanged : FileSys := fun p => if p = "content/a.md" then some ("f1", 7) else none

/-- Filesystem where the content of `content/a.md` changed to fingerprint f2. -/
def fsChanged : FileSys := fun p => if p = "content/a.md" then some ("f2", 9) else none

/-- C5: the claim is right and the code is wrong.  With a stored record for
`content/a.md` whose fingerprint equals the file's current fingerprint,
`set_fingerprint` falls into the create branch (the `else` should have been
`elif not record`) and constructs a second `FileFingerprint` with the same
unique `file_path`, raising an integrity error instead of leaving the record
untouched with no store write.  For contrast, the second conjunct shows that a
changed fingerprint is updated in place, as the claim states. -/
theorem set_fingerprint_unchanged_bug :
    set_fingerprint fsUnchanged [⟨"content/a.md", "f1", 5⟩] "content/a.md" none
        = Except.error SetErr.cacheIndex ∧
    set_fingerprint fsChanged [⟨"content/a.md", "f1", 5⟩] "content/a.md" none
        = Except.ok [⟨"content/a.md", "f2", 9⟩] := by decide

/-- An entry scanner that always returns a truthy record. -/
def esAny : EntryScanner := fun _ _ _ => ScanRes.truthy

/-- A category scanner that always returns a truthy record. -/
def csAny : CatScanner := fun _ _ => ScanRes.truthy

/-- Filesystem containing only the non-indexable file `notes.txt`. -/
def fsTxt : FileSys := fun p => if p = "notes.txt" then some ("abc", 3) else none

/-- C6 is refuted: processing `notes.txt` (extension neither entry nor
category type) yields the NotApplicable result (`none`), yet the
FingerprintStore is not left untouched: a fingerprint record for the path is
created by that very processing step. -/
theorem notapplicable_touches_store_cex :
    (scan_file_item esAny csAny fsTxt [] ⟨"notes.txt", some "notes.txt", false⟩).result
        = none ∧
    (scan_file_item esAny csAny fsTxt [] ⟨"notes.txt", some "notes.txt", false⟩).outcome
        = Except.ok [⟨"notes.txt", "abc", 3⟩] ∧
    (scan_file_item esAny csAny fsTxt [] ⟨"notes.txt", some "notes.txt", false⟩).outcome
        ≠ Except.ok ([] : List FpRecord) := by decide

/-- C6 (amended): on a NotApplicable outcome (`do_scan` returns None) the code
still runs the fingerprint update: the resulting store is exactly
`set_fingerprint` applied to the item's path — creating or updating a record
for the path (or deleting it if the file vanished) just as on Success — and
nothing is re-enqueued.  Only the TransientFailure-with-fixup-false path
leaves the store untouched. -/
theorem notapplicable_updates_fingerprint (es : EntryScanner) (cs : CatScanner) (fs : FileSys)
    (store : List FpRecord) (it : WorkItem)
    (hna : (do_scan es cs it.fullpath it.relpath it.fixups).1 = none) :
    (scan_file_item es cs fs store it).outcome = set_fingerprint fs store it.fullpath none ∧
    (scan_file_item es cs fs store it).enqueued = [] := by
  unfold scan_file_item
  rw [if_neg]
  · exact ⟨rfl, rfl⟩
  · intro hcontra
    rw [hna] at hcontra
    exact absurd hcontra.1 (by simp)

theorem notapplicable_updates_fingerprint_witness :
    (do_scan esAny csAny "notes.txt" (some "notes.txt") false).1 = none ∧
    ((scan_file_item esAny csAny fsTxt [] ⟨"notes.txt", some "notes.txt", false⟩).outcome
        = set_fingerprint fsTxt [] "notes.txt" none ∧
      (scan_file_item esAny csAny fsTxt []
        ⟨"notes.txt", some "notes.txt", false⟩).enqueued = []) :=
  ⟨by decide,
    notapplicable_updates_fingerprint esAny csAny fsTxt []
      ⟨"notes.txt", some "notes.txt", false⟩ (by decide)⟩

/-- A scan result that counts as a TransientFailure source: the scanner
returned False, or raised and was downgraded to False by `do_scan`. -/
def isFailure (r : ScanRes) : Prop := r = ScanRes.falsy ∨ r = ScanRes.raises

/-- C3: the fixup retry happens exactly once per enqueue lineage, shown for an
entry-type path.  (1) A TransientFailure on a non-fixup pass re-enqueues
exactly one item — the same path with fixup=true — and leaves the store
untouched.  (2) A TransientFailure on a fixup pass re-enqueues nothing.  (3) A
scanner that fails on the first call and succeeds under fixup is invoked
exactly twice in total, and the second pass ends in Success with nothing
further enqueued. -/
theorem fixup_exactly_once (es : EntryScanner) (cs : CatScanner) (fs : FileSys)
    (store : List FpRecord) (p : String) (r : Option String)
    (hext : (splitext p).2 ∈ ENTRY_TYPES) :
    (isFailure (es p r false) →
      (scan_file_item es cs fs store ⟨p, r, false⟩).enqueued = [⟨p, r, true⟩] ∧
      (scan_file_item es cs fs store ⟨p, r, false⟩).result = some false ∧
      (scan_file_item es cs fs store ⟨p, r, false⟩).outcome = Except.ok store) ∧
    (isFailure (es p r true) →
      (scan_file_item es cs fs store ⟨p, r, true⟩).enqueued = []) ∧
    (isFailure (es p r false) → es p r true = ScanRes.truthy →
      (scan_file_item es cs fs store ⟨p, r, false⟩).calls ++
          (scan_file_item es cs fs store ⟨p, r, true⟩).calls
        = [ScanCall.entry p r false, ScanCall.entry p r true] ∧
      (scan_file_item es cs fs store ⟨p, r, true⟩).result = some true ∧
      (scan_file_item es cs fs store ⟨p, r, true⟩).enqueued = []) := by
  refine ⟨?_, ?_, ?_⟩
  · intro hf
    have hdo : do_scan es cs p r false = (some false, [ScanCall.entry p r false]) := by
      rw [do_scan_entry es cs p r false hext]
      rcases hf with hf | hf <;> rw [hf]
    simp [scan_file_item, hdo]
  · intro hf
    have hdo : do_scan es cs p r true = (some false, [ScanCall.entry p r true]) := by
      rw [do_scan_entry es cs p r true hext]
      rcases hf with hf | hf <;> rw [hf]
    simp [scan_file_item, hdo]
  · intro hf ht
    have hdo1 : do_scan es cs p r false = (some false, [ScanCall.entry p r false]) := by
      rw [do_scan_entry es cs p r false hext]
      rcases hf with hf | hf <;> rw [hf]
    have hdo2 : do_scan es cs p r true = (some true, [ScanCall.entry p r true]) := by
      rw [do_scan_entry es cs p r true hext, ht]
    simp [scan_file_item, hdo1, hdo2]

/-- The scanner of the fail-then-fixup scenario: False without fixups, a
truthy record under fixups. -/
def esFixup : EntryScanner := fun _ _ fx => if fx then ScanRes.truthy else ScanRes.falsy

theorem fixup_exactly_once_witness :
    ((splitext "content/b.md").2 ∈ ENTRY_TYPES) ∧
    (scan_file_item esFixup csAny fsTxt [] ⟨"content/b.md", some "b.md", false⟩).calls ++
        (scan_file_item esFixup csAny fsTxt [] ⟨"content/b.md", some "b.md", true⟩).calls
      = [ScanCall.entry "content/b.md" (some "b.md") false,
         ScanCall.entry "content/b.md" (some "b.md") true] :=
  ⟨by decide,
    ((fixup_exactly_once esFixup csAny fsTxt [] "content/b.md" (some "b.md")
      (by decide)).2.2 (Or.inl rfl) rfl).1⟩

/-- Does a recorded scanner call carry all three fields of the work item?  An
entry call does when its arguments are the item's three fields; a category
call carries no fixup argument at all. -/
def receivesAllFields (it : WorkItem) : ScanCall → Prop
  | ScanCall.entry fp rp fx => fp = it.fullpath ∧ rp = it.relpath ∧ fx = it.fixups
  | ScanCall.cat _ _ => False

/-- C9 is refuted: for the category-type item `site.meta` the dispatcher
invokes `category.scan_file` with only the full and relative paths; the one
call made does not carry the item's fixup flag. -/
theorem category_call_missing_fixup_cex :
    (scan_file_item esAny csAny fsTxt [] ⟨"site.meta", some "site.meta", true⟩).calls
      = [ScanCall.cat "site.meta" (some "site.meta")] ∧
    ¬ receivesAllFields ⟨"site.meta", some "site.meta", true⟩
        (ScanCall.cat "site.meta" (some "site.meta")) :=
  ⟨by decide, fun h => h⟩

/-- C9 (amended): an entry-type item's scanner invocation receives all three
of the item's fields `(fullpath, relpath, fixups)`, but a category-type item's
invocation receives only the full path and the relative path — the fixup flag
is not forwarded to `category.scan_file`. -/
theorem scanner_call_fields (es : EntryScanner) (cs : CatScanner) (fs : FileSys)
    (store : List FpRecord) (p : String) (r : Option String) (fx : Bool) :
    ((splitext p).2 ∈ ENTRY_TYPES →
      (scan_file_item es cs fs store ⟨p, r, fx⟩).calls = [ScanCall.entry p r fx] ∧
      receivesAllFields ⟨p, r, fx⟩ (ScanCall.entry p r fx)) ∧
    ((splitext p).2 ∈ CATEGORY_TYPES →
      (scan_file_item es cs fs store ⟨p, r, fx⟩).calls = [ScanCall.cat p r] ∧
      ¬ receivesAllFields ⟨p, r, fx⟩ (ScanCall.cat p r)) := by
  constructor
  · intro hext
    have hdo := do_scan_entry es cs p r fx hext
    refine ⟨?_, rfl, rfl, rfl⟩
    simp only [scan_file_item]
    rw [hdo]
    split <;> rfl
  · intro hext
    have hdo := do_scan_cat es cs p r fx hext
    refine ⟨?_, fun h => h⟩
    simp only [scan_file_item]
    rw [hdo]
    split <;> rfl

theorem scanner_call_fields_witness :
    ((splitext "x/site.meta").2 ∈ CATEGORY_TYPES) ∧
    ((scan_file_item esAny csAny fsTxt [] ⟨"x/site.meta", some "site.meta", false⟩).calls
        = [ScanCall.cat "x/site.meta" (some "site.meta")] ∧
      ¬ receivesAllFields ⟨"x/site.meta", some "site.meta", false⟩
          (ScanCall.cat "x/site.meta" (some "site.meta"))) :=
  ⟨by decide,
    (scanner_call_fields esAny csAny fsTxt [] "x/site.meta" (some "site.meta") false).2
      (by decide)⟩

/-- Structure of the batch loop: steps before the last are error-free, an
all-error-free batch covers every item, and never more steps than items. -/
theorem processBatch_spec (es : EntryScanner) (cs : CatScanner) (fs : FileSys) :
    ∀ (items : List WorkItem) (store : List FpRecord),
      (∀ st ∈ (processBatch es cs fs store items).1.dropLast, st.outcome.isOk = true) ∧
      ((∀ st ∈ (processBatch es cs fs store items).1, st.outcome.isOk = true) →
        (processBatch es cs fs store items).1.length = items.length) ∧
      (processBatch es cs fs store items).1.length ≤ items.length := by
  intro items
  induction items with
  | nil =>
      intro store
      refine ⟨?_, ?_, ?_⟩ <;> simp [processBatch]
  | cons it rest ih =>
      intro store
      cases houtcome : (scan_file_item es cs fs store it).outcome with
      | error e =>
          have hpb : (processBatch es cs fs store (it :: rest)).1
              = [scan_file_item es cs fs store it] := by
            simp only [processBatch, houtcome]
          refine ⟨?_, ?_, ?_⟩
          · rw [hpb]
            intro st hst
            exact absurd hst (by simp)
          · intro hall
            have hok := hall (scan_file_item es cs fs store it) (by rw [hpb]; simp)
            rw [houtcome] at hok
            simp [Except.isOk, Except.toBool] at hok
          · rw [hpb]
            simp
      | ok store2 =>
          have hpb : (processBatch es cs fs store (it :: rest)).1
              = scan_file_item es cs fs store it :: (processBatch es cs fs store2 rest).1 := by
            simp only [processBatch, houtcome]
          obtain ⟨ih1, ih2, ih3⟩ := ih store2
          refine ⟨?_, ?_, ?_⟩
          · rw [hpb]
            intro st hst
            cases htail : (processBatch es cs fs store2 rest).1 with
            | nil =>
                rw [htail] at hst
                exact absurd hst (by simp)
            | cons a l =>
                rw [htail] at hst
                rw [List.dropLast_cons₂] at hst
                rcases List.mem_cons.1 hst with hst2 | hst2
                · rw [hst2, houtcome]
                  rfl
                · have := ih1 st
                  rw [htail] at this
                  exact this hst2
          · intro hall
            rw [hpb]
            have hlen : (processBatch es cs fs store2 rest).1.length = rest.length := by
              apply ih2
              intro st hst
              exact hall st (by rw [hpb]; exact List.mem_cons_of_mem _ hst)
            simp [hlen]
          · rw [hpb]
            simpa using ih3

/-- Filesystem for the batch-abort scenario. -/
def fsBatch : FileSys := fun p =>
  if p = "content/a.md" then some ("f1", 5)
  else if p = "content/b.md" then some ("g1", 6) else none

/-- A two-item batch whose first item hits the fingerprint-update exception. -/
def batchItems : List WorkItem :=
  [⟨"content/a.md", some "a.md", false⟩, ⟨"content/b.md", some "b.md", false⟩]

/-- C8 is refuted on the fingerprint-update half: in a two-item drain batch
where the first item's `set_fingerprint` raises (its stored fingerprint equals
the current one, hitting the duplicate-create branch), the exception escapes
`_scan_file`, is caught only by the `try` around the whole loop, and the
second item of the same drain pass is never processed. -/
theorem fingerprint_error_aborts_batch_cex :
    (processBatch esAny csAny fsBatch [⟨"content/a.md", "f1", 5⟩] batchItems).1
      = [⟨some true, [ScanCall.entry "content/a.md" (some "a.md") false], [],
          Except.error SetErr.cacheIndex⟩] ∧
    batchItems.length = 2 := by decide

/-- C8 (amended): an unexpected exception inside the dispatched scanner is
caught at the item boundary — `do_scan` downgrades it to False
(TransientFailure) — and does not abort the batch; the batch function itself
is total, so nothing kills the worker pipeline.  But an exception escaping the
fingerprint update is caught only at the batch level: every step before the
last of a drain pass has a non-error outcome (an error stops the pass), and
the pass covers all items exactly when no fingerprint error occurred. -/
theorem batch_error_boundary (es : EntryScanner) (cs : CatScanner) (fs : FileSys)
    (store : List FpRecord) (items : List WorkItem) :
    (∀ it : WorkItem, (splitext it.fullpath).2 ∈ ENTRY_TYPES →
        es it.fullpath it.relpath it.fixups = ScanRes.raises →
        (scan_file_item es cs fs store it).result = some false) ∧
    (∀ st ∈ (processBatch es cs fs store items).1.dropLast, st.outcome.isOk = true) ∧
    ((∀ st ∈ (processBatch es cs fs store items).1, st.outcome.isOk = true) →
      (processBatch es cs fs store items).1.length = items.length) ∧
    (processBatch es cs fs store items).1.length ≤ items.length := by
  obtain ⟨h1, h2, h3⟩ := processBatch_spec es cs fs items store
  refine ⟨?_, h1, h2, h3⟩
  intro it hext hraise
  have hdo := do_scan_entry es cs it.fullpath it.relpath it.fixups hext
  simp only [hraise] at hdo
  simp only [scan_file_item]
  rw [hdo]
  split <;> rfl

/-- An entry scanner that always raises. -/
def esRaise : EntryScanner := fun _ _ _ => ScanRes.raises

theorem batch_error_boundary_witness :
    ((splitext "content/a.md").2 ∈ ENTRY_TYPES) ∧
    (scan_file_item esRaise csAny fsBatch [] ⟨"content/a.md", some "a.md", false⟩).result
      = some false :=
  ⟨by decide,
    (batch_error_boundary esRaise csAny fsBatch [] batchItems).1
      ⟨"content/a.md", some "a.md", false⟩ (by decide) rfl⟩

/-! ## prune_missing and the introspection helpers -/

/-- The `kill` inner function of `prune_missing` for one collected path:
re-fetch the record by its unique path and re-check existence on disk before
deleting it. -/
def kill (fsKill : FileSys) (store : List FpRecord) (path : String) : List FpRecord :=
  match store.find? (fun r => r.file_path == path) with
  | none => store
  | some r =>
    if isfile fsKill r.file_path then store
    else store.filter (fun q => q.file_path != path)

/-- The read phase (`fill`) of `prune_missing`: the paths of all records whose
file is missing from the read-phase filesystem snapshot. -/
def removedPaths (fsRead : FileSys) (store : List FpRecord) : List String :=
  (store.filter (fun r => !(isfile fsRead r.file_path))).map (fun r => r.file_path)

/-- `prune_missing` from index.py, with the filesystem sampled once in the
read phase (`fsRead`) and once at the delete-phase re-check (`fsKill`):
collect the paths whose file is missing, then delete each collected record
only if its file is still missing at the mandatory re-check. -/
def prune_missing (fsRead fsKill : FileSys) (store : List FpRecord) : List FpRecord :=
  (removedPaths fsRead store).foldl (kill fsKill) store

theorem mem_kill (fsKill : FileSys) (store : List FpRecord) (path : String) (x : FpRecord) :
    x ∈ kill fsKill store path ↔
      x ∈ store ∧ ¬(x.file_path = path ∧ isfile fsKill path = false) := by
  unfold kill
  cases hfind : store.find? (fun r => r.file_path == path) with
  | none =>
      have hnone := List.find?_eq_none.1 hfind
      constructor
      · intro hx
        refine ⟨hx, fun hcon => ?_⟩
        have hb := hnone x hx
        rw [hcon.1] at hb
        simp at hb
      · exact fun h => h.1
  | some r =>
      have hr := List.find?_some hfind
      have hrp : r.file_path = path := by simpa using hr
      dsimp only
      rw [hrp]
      split
      case isTrue hisf =>
        constructor
        · intro hx
          refine ⟨hx, fun hcon => ?_⟩
          rw [hisf] at hcon
          exact absurd hcon.2 (by simp)
        · exact fun h => h.1
      case isFalse hisf =>
        have hff : isfile fsKill path = false := by
          cases hb : isfile fsKill path
          · rfl
          · exact absurd hb hisf
        rw [List.mem_filter]
        simp [bne_iff_ne, hff]

theorem mem_foldl_kill (fsKill : FileSys) :
    ∀ (ps : List String) (store : List FpRecord) (x : FpRecord),
      x ∈ ps.foldl (kill fsKill) store ↔
        x ∈ store ∧ ∀ p ∈ ps, ¬(x.file_path = p ∧ isfile fsKill p = false) := by
  intro ps
  induction ps with
  | nil =>
      intro store x
      simp
  | cons p rest ih =>
      intro store x
      show x ∈ rest.foldl (kill fsKill) (kill fsKill store p) ↔ _
      rw [ih, mem_kill]
      constructor
      · rintro ⟨⟨hx, hp⟩, hrest⟩
        refine ⟨hx, fun q hq => ?_⟩
        rcases List.mem_cons.1 hq with h | h
        · exact h ▸ hp
        · exact hrest q h
      · rintro ⟨hx, hall⟩
        exact ⟨⟨hx, hall p (List.mem_cons_self _ _)⟩,
          fun q hq => hall q (List.mem_cons_of_mem _ hq)⟩

theorem mem_removedPaths (fsRead : FileSys) (store : List FpRecord)
    (hnd : (store.map FpRecord.file_path).Nodup) (x : FpRecord) (hx : x ∈ store) :
    x.file_path ∈ removedPaths fsRead store ↔ isfile fsRead x.file_path = false := by
  unfold removedPaths
  constructor
  · intro hmem
    obtain ⟨r, hrmem, hrp⟩ := List.mem_map.1 hmem
    obtain ⟨hrstore, hrfalse⟩ := List.mem_filter.1 hrmem
    have hrx : r = x := List.inj_on_of_nodup_map hnd hrstore hx hrp
    rw [← hrx]
    simpa using hrfalse
  · intro hfalse
    refine List.mem_map.2 ⟨x, List.mem_filter.2 ⟨hx, ?_⟩, rfl⟩
    simp [hfalse]

/-- C7: `prune_missing` deletes exactly the records whose file is missing both
at the read-phase collection and at the mandatory delete-phase re-check, and
no others: a record of the table is deleted iff its path was collected as
missing in the read snapshot and its file does not exist at the re-check
snapshot.  In particular, a record whose file was missing during the read
phase but exists again at the re-check is not deleted. -/
theorem prune_missing_exact (fsRead fsKill : FileSys) (store : List FpRecord)
    (hnd : (store.map FpRecord.file_path).Nodup) (x : FpRecord) (hx : x ∈ store) :
    (x ∉ prune_missing fsRead fsKill store ↔
      isfile fsRead x.file_path = false ∧ isfile fsKill x.file_path = false) ∧
    (isfile fsRead x.file_path = false → isfile fsKill x.file_path = true →
      x ∈ prune_missing fsRead fsKill store) := by
  have hmem : x ∈ prune_missing fsRead fsKill store ↔
      x ∈ store ∧ ∀ p ∈ removedPaths fsRead store,
        ¬(x.file_path = p ∧ isfile fsKill p = false) :=
    mem_foldl_kill fsKill (removedPaths fsRead store) store x
  constructor
  · constructor
    · intro hnp
      by_cases hR : isfile fsRead x.file_path = false
      · refine ⟨hR, ?_⟩
        by_cases hK : isfile fsKill x.file_path = false
        · exact hK
        · exfalso
          apply hnp
          refine hmem.2 ⟨hx, fun p hp hcon => ?_⟩
          obtain ⟨hxp, hkf⟩ := hcon
          rw [← hxp] at hkf
          exact hK hkf
      · exfalso
        apply hnp
        refine hmem.2 ⟨hx, fun p hp hcon => ?_⟩
        obtain ⟨hxp, -⟩ := hcon
        rw [← hxp] at hp
        rw [(mem_removedPaths fsRead store hnd x hx).1 hp] at hR
        exact hR rfl
    · rintro ⟨hR, hK⟩ hmemprune
      obtain ⟨-, hall⟩ := hmem.1 hmemprune
      exact hall x.file_path ((mem_removedPaths fsRead store hnd x hx).2 hR) ⟨rfl, hK⟩
  · intro hR hK
    refine hmem.2 ⟨hx, fun p hp hcon => ?_⟩
    obtain ⟨hxp, hkf⟩ := hcon
    rw [← hxp] at hkf
    rw [hK] at hkf
    exact absurd hkf (by simp)

/-- A two-record store: one file present, one deleted from disk. -/
def storePrune : List FpRecord :=
  [⟨"content/a.md", "f1", 5⟩, ⟨"content/gone.md", "g1", 6⟩]

theorem prune_missing_exact_witness :
    (storePrune.map FpRecord.file_path).Nodup ∧
    (⟨"content/gone.md", "g1", 6⟩ : FpRecord) ∈ storePrune ∧
    (((⟨"content/gone.md", "g1", 6⟩ : FpRecord) ∉
          prune_missing fsUnchanged fsUnchanged storePrune ↔
        isfile fsUnchanged "content/gone.md" = false ∧
        isfile fsUnchanged "content/gone.md" = false) ∧
      (isfile fsUnchanged "content/gone.md" = false →
        isfile fsUnchanged "content/gone.md" = true →
        (⟨"content/gone.md", "g1", 6⟩ : FpRecord) ∈
          prune_missing fsUnchanged fsUnchanged storePrune)) :=
  ⟨by decide, by decide,
    prune_missing_exact fsUnchanged fsUnchanged storePrune (by decide)
      ⟨"content/gone.md", "g1", 6⟩ (by decide)⟩

/-- Python values relevant to `queue_length` and `in_progress`, with Python
truthiness. -/
inductive PyVal where
  | noneV : PyVal
  | intV : Int → PyVal
  | funcV : String → PyVal
deriving DecidableEq, Repr

/-- Python `bool(...)` on the modelled values: None is falsy, an integer is
truthy iff non-zero, a function object is always truthy. -/
def truthy : PyVal → Bool
  | PyVal.noneV => false
  | PyVal.intV n => n != 0
  | PyVal.funcV _ => true

/-- `queue_length` from index.py: the work queue's approximate size when the
thread pool exposes a `_work_queue`, else None. -/
def queue_length (workQueue : Option Nat) : PyVal :=
  match workQueue with
  | none => PyVal.noneV
  | some n => PyVal.intV n

/-- `in_progress` from index.py: `return bool(queue_length)` — the truthiness
of the `queue_length` function object itself; the function is never called. -/
def in_progress (_workQueue : Option Nat) : Bool :=
  truthy (PyVal.funcV "queue_length")

/-- C10: `in_progress` returns True in every state — including with an empty
work queue (`some 0`) and with no work queue exposed at all (`none`) — because
it evaluates the truthiness of the `queue_length` function object rather than
of its result; the result's truthiness would have been False in exactly those
two states. -/
theorem in_progress_always_true :
    (∀ workQueue : Option Nat, in_progress workQueue = true) ∧
    truthy (queue_length none) = false ∧
    truthy (queue_length (some 0)) = false :=
  ⟨fun _ => rfl, rfl, by decide⟩

end Publ